import Mathlib

/-
Verification development for the REIL intermediate-representation core
(pyopenreil REIL.py): operand and instruction encoding, symbolic value
algebra, control-flow successor computation, CFG traversal, and the
translating instruction cache. Python integers are modelled as Nat with
explicit masking, Python None in data positions as explicit constructors
or Option, and Python exceptions as Except errors.
-/

namespace REIL

/-! Flag constants (IOPT_CALL .. IOPT_ASM_END). -/

def IOPT_CALL : Nat := 1
def IOPT_RET : Nat := 2
def IOPT_BB_END : Nat := 4
def IOPT_ASM_END : Nat := 8

/-! Opcode indices generated from the REIL_INSN name list: NONE=0, JCC=1,
STR=2, STM=3, LDM=4, ADD=5, SUB=6, NEG=7, MUL=8, DIV=9, MOD=10, SMUL=11,
SDIV=12, SMOD=13, SHL=14, SHR=15, ROL=16, ROR=17, AND=18, OR=19, XOR=20,
NOT=21, EQ=22, NEQ=23, L=24, LE=25, SL=26, SLE=27, CAST_L=28, CAST_H=29,
CAST_U=30, CAST_S=31.  There are 32 opcodes, so the largest legal index
is 31. -/

def I_NONE : Nat := 0
def I_JCC : Nat := 1
def I_STR : Nat := 2
def I_STM : Nat := 3
def I_LDM : Nat := 4
def I_ADD : Nat := 5
def I_SUB : Nat := 6
def I_AND : Nat := 18
def I_OR : Nat := 19
def I_XOR : Nat := 20

def REIL_INSN_MAX : Nat := 31

/-! Width indices from REIL_SIZE: U1=0, U8=1, U16=2, U32=3, U64=4. -/

def U1 : Nat := 0
def U8 : Nat := 1
def U16 : Nat := 2
def U32 : Nat := 3
def U64 : Nat := 4

/-! Operand kind indices from REIL_ARG: NONE=0, REG=1, TEMP=2, CONST=3. -/

def A_NONE : Nat := 0
def A_REG : Nat := 1
def A_TEMP : Nat := 2
def A_CONST : Nat := 3

/-- A field of a serialized operand tuple: a Python integer, the Python
value None, or a string (register or temporary name). -/
inductive SField where
  | fnum (n : Nat)
  | fnone
  | fstr (s : String)
deriving DecidableEq, Repr

/-- Conversion of an optional number to a serialized field, mirroring how
a Python value that is either an int or None lands in a tuple. -/
def sfOfONat : Option Nat → SField
  | none => SField.fnone
  | some n => SField.fnum n

/-- Operand (class Arg).  In the source, size and name may be None, val
defaults to 0, and both name and val hold whatever object unserialize
put there, so both are kept as serialized-field values. -/
structure Arg where
  type : Nat
  size : Option Nat
  name : SField
  val : SField
deriving DecidableEq, Repr

/-- Arg.get_val: the raw value masked to the declared width; Python
returns None when size is not one of the five legal width indices.  For
a legal width with a non-numeric val (possible only on an operand
decoded from a malformed record) the source raises a TypeError at the
masking; that path is collapsed to None here as well, keeping get_val
total. -/
def Arg.get_val (a : Arg) : Option Nat :=
  match a.size, a.val with
  | some 0, SField.fnum n => some (n % 2)
  | some 1, SField.fnum n => some (n % 0x100)
  | some 2, SField.fnum n => some (n % 0x10000)
  | some 3, SField.fnum n => some (n % 0x100000000)
  | some 4, SField.fnum n => some (n % 0x10000000000000000)
  | _, _ => none

/-- Arg.serialize: REG and TEMP records carry (type, size, name), the NONE
operand serializes to the empty tuple, and every other kind (the CONST
branch) carries (type, size, val) with the raw, unmasked value object. -/
def Arg.serialize (a : Arg) : List SField :=
  if a.type = A_REG ∨ a.type = A_TEMP then
    [SField.fnum a.type, sfOfONat a.size, a.name]
  else if a.type = A_NONE then []
  else [SField.fnum a.type, sfOfONat a.size, a.val]

/-- Whether a width index is one of the five legal values U1, U8, U16,
U32, U64 (the membership test in Arg.unserialize). -/
def legalSizeN (n : Nat) : Bool :=
  n == 0 || n == 1 || n == 2 || n == 3 || n == 4

/-- Arg.unserialize on a fresh operand (type NONE, size None, name None,
val 0, as produced by the Arg constructor inside Insn).  A three-element
tuple must carry a numeric kind and width, the width must be legal, and
the kind must be REG, TEMP or CONST; the value object is stored without
any check, as name for REG and TEMP and as val for CONST; the empty
tuple resets to the NONE operand; every other arity is rejected. -/
def Arg.unserialize (data : List SField) : Option Arg :=
  match data with
  | [t, sz, v] =>
    match t, sz with
    | SField.fnum tn, SField.fnum szn =>
      if legalSizeN szn then
        if tn = A_REG ∨ tn = A_TEMP then some ⟨tn, some szn, v, SField.fnum 0⟩
        else if tn = A_CONST then some ⟨tn, some szn, SField.fnone, v⟩
        else none
      else none
    | _, _ => none
  | [] => some ⟨A_NONE, none, SField.fnone, SField.fnum 0⟩
  | _ => none

/-- Arg.is_var: true exactly for temporaries and target registers. -/
def Arg.is_var (a : Arg) : Bool :=
  a.type == A_REG || a.type == A_TEMP

/-- A REIL instruction (class Insn): machine-instruction address and byte
size, IR subindex, opcode, three operands and the flag bitset. -/
structure Insn where
  addr : Nat
  size : Nat
  inum : Nat
  op : Nat
  a : Arg
  b : Arg
  c : Arg
  flags : Nat
deriving DecidableEq, Repr

/-- Serialized instruction record:
((addr, size), inum, op, args, flags); args is kept as a list so that the
arity check of unserialize is observable. -/
structure SInsn where
  addr : Nat
  msize : Nat
  inum : Nat
  op : Nat
  args : List (List SField)
  flags : Nat
deriving DecidableEq, Repr

/-- Insn.serialize. -/
def Insn.serialize (i : Insn) : SInsn :=
  ⟨i.addr, i.size, i.inum, i.op, [i.a.serialize, i.b.serialize, i.c.serialize], i.flags⟩

/-- Insn.unserialize: checks the opcode bound, then the operand arity,
then each operand; every failure raises ParseError carrying the record
address. -/
def Insn.unserialize (d : SInsn) : Except Nat Insn :=
  if d.op > REIL_INSN_MAX then Except.error d.addr
  else
    match d.args with
    | [sa, sb, sc] =>
      match Arg.unserialize sa, Arg.unserialize sb, Arg.unserialize sc with
      | some a, some b, some c =>
        Except.ok ⟨d.addr, d.msize, d.inum, d.op, a, b, c, d.flags⟩
      | _, _, _ => Except.error d.addr
    | _ => Except.error d.addr

/-- Insn.have_flag. -/
def Insn.have_flag (i : Insn) (v : Nat) : Bool :=
  i.flags &&& v != 0

/-- Insn.next: the fallthrough successor.  The branch condition reads
get_val of operand a; the source compares that result against 0, and a
None result (illegal width) also counts as nonzero there.  Target
addresses are kept as Option Nat because a jump target address can be the
Python value None. -/
def Insn.next (i : Insn) : Option (Option Nat × Nat) :=
  if i.have_flag IOPT_RET then none
  else if i.op == I_JCC && i.a.type == A_CONST && !(i.a.get_val == some 0)
          && !i.have_flag IOPT_CALL then none
  else if i.have_flag IOPT_ASM_END then some (some (i.addr + i.size), 0)
  else some (some i.addr, i.inum + 1)

/-- Insn.jcc_loc: the branch target of a conditional jump with a constant
operand c; the address component is get_val of c (None on illegal width). -/
def Insn.jcc_loc (i : Insn) : Option (Option Nat × Nat) :=
  if i.op == I_JCC && i.c.type == A_CONST then some (i.c.get_val, 0)
  else none

/-- Python-level errors raised by the modelled operations: a dictionary
KeyError, a ParseError carrying the record address, a ReadError carrying
the requested address, an attribute or arity TypeError, and a marker for
running out of fuel in a loop the source runs unboundedly. -/
inductive PyErr where
  | keyErr
  | parseErr (addr : Nat)
  | readErr (addr : Nat)
  | tyErr
  | attrErr
  | fuelErr
deriving DecidableEq, Repr

/-! Symbolic value algebra (SymVal, SymAny, SymPtr, SymConst, SymExp).
The Python value None flows through the same positions as symbolic
values (absent expression operands, absent state bindings), so it is one
constructor of the union here.  Sizes are carried but, as in the source,
never consulted by equality. -/

/-- Symbolic value: Python None, the wildcard SymAny, a named SymVal, a
pointer SymPtr, a constant SymConst (value None when get_val returned
None), or an expression SymExp whose absent operands are noneV. -/
inductive Sym where
  | noneV
  | any
  | val (name : SField) (size : Option Nat)
  | ptr (inner : Sym)
  | const (v : Option Nat) (size : Option Nat)
  | exp (op : Nat) (a : Sym) (b : Sym)
deriving DecidableEq, Repr

/-- SymExp.commutative: the tuple (I_ADD, I_SUB, I_AND, I_XOR, I_OR). -/
def commutativeOps : List Nat := [I_ADD, I_SUB, I_AND, I_XOR, I_OR]

/-- Structural equality of symbolic values, following the per-class eq
methods: SymAny matches anything on either side, None matches only None
or SymAny, SymVal and SymConst compare their value fields only (sizes
ignored), SymPtr compares the pointed-to values, and SymExp with an
opcode in the commutative tuple accepts operands in order or swapped
while any other opcode requires the operands in order. -/
def symEq (l r : Sym) : Bool :=
  match l with
  | Sym.noneV =>
    (match r with
     | Sym.any => true
     | Sym.noneV => true
     | _ => false)
  | Sym.any => true
  | Sym.val n _ =>
    (match r with
     | Sym.any => true
     | Sym.val m _ => n == m
     | _ => false)
  | Sym.ptr v =>
    (match r with
     | Sym.any => true
     | Sym.ptr w => symEq v w
     | _ => false)
  | Sym.const v _ =>
    (match r with
     | Sym.any => true
     | Sym.const w _ => v == w
     | _ => false)
  | Sym.exp op a b =>
    (match r with
     | Sym.any => true
     | Sym.exp op2 a2 b2 =>
       if op == op2 && commutativeOps.contains op then
         (symEq a a2 && symEq b b2) || (symEq b a2 && symEq a b2)
       else op == op2 && symEq a a2 && symEq b b2
     | _ => false)

/-- Symbolic state (class SymState): an insertion-ordered mapping from
symbolic values to symbolic values, as a Python dict keyed by the eq
relation above. -/
abbrev SymState : Type := List (Sym × Sym)

/-- Dictionary lookup: the first entry whose stored key equals the query
key (stored key on the left of the comparison, as in the dict probe). -/
def stLookup : SymState → Sym → Option Sym
  | [], _ => none
  | (k, v) :: rest, q => if symEq k q then some v else stLookup rest q

/-- SymState.update: dict assignment replaces the value at an equal key,
keeping the stored key and position, or appends a new entry. -/
def stUpdate : SymState → Sym → Sym → SymState
  | [], k, v => [(k, v)]
  | (k0, v0) :: rest, k, v =>
    if symEq k0 k then (k0, v) :: rest else (k0, v0) :: stUpdate rest k v

/-- The operand-to-symbolic conversion (_to_symbolic_arg): registers and
temporaries resolve to their current binding or become an opaque SymVal,
constants become SymConst of their masked value, and the NONE operand
becomes Python None. -/
def toSymArg (st : SymState) (a : Arg) : Sym :=
  if a.type = A_REG ∨ a.type = A_TEMP then
    let v := Sym.val a.name a.size
    match stLookup st v with
    | some bound => bound
    | none => v
  else if a.type = A_CONST then Sym.const a.get_val a.size
  else Sym.noneV

/-- Insn.to_symbolic: the state-transfer function.  JCC and NONE leave
the state unchanged; sources are converted and a constant first source
is swapped behind a plain SymVal second source; STR binds c directly,
LDM binds c to a pointer, STM looks up the current binding of c (a
KeyError when unbound) and rebinds the pointer to that binding, and
every other opcode binds c to the expression over a and b (an attribute
error if a is None, since None has no to_exp method). -/
def Insn.to_symbolic (i : Insn) (in_state : SymState) : Except PyErr SymState :=
  if i.op = I_JCC ∨ i.op = I_NONE then Except.ok in_state
  else
    let a0 := toSymArg in_state i.a
    let b0 := toSymArg in_state i.b
    let c := Sym.val i.c.name i.c.size
    let ab : Sym × Sym :=
      match a0, b0 with
      | Sym.const v s, Sym.val n s2 => (Sym.val n s2, Sym.const v s)
      | x, y => (x, y)
    if i.op = I_STR then Except.ok (stUpdate in_state c ab.1)
    else if i.op = I_LDM then Except.ok (stUpdate in_state c (Sym.ptr ab.1))
    else if i.op = I_STM then
      match stLookup in_state c with
      | none => Except.error PyErr.keyErr
      | some bound => Except.ok (stUpdate in_state (Sym.ptr bound) ab.1)
    else
      match ab.1 with
      | Sym.noneV => Except.error PyErr.attrErr
      | av => Except.ok (stUpdate in_state c (Sym.exp i.op av ab.2))

/-- Legality of one operand as constructed through the Arg constructor:
the NONE operand is all defaults, registers and temporaries carry a legal
width and the default value 0, and constants carry a legal width, the
default name None and a numeric value (the constructor coerces val
through long()). -/
def Arg.wf (a : Arg) : Bool :=
  (a.type == A_NONE && a.size == none && a.name == SField.fnone
     && a.val == SField.fnum 0)
  || ((a.type == A_REG || a.type == A_TEMP)
        && (match a.size with | some n => legalSizeN n | none => false)
        && a.val == SField.fnum 0)
  || (a.type == A_CONST
        && (match a.size with | some n => legalSizeN n | none => false)
        && a.name == SField.fnone
        && (match a.val with | SField.fnum _ => true | _ => false))

/-- Legality of an instruction: legal opcode index and three legal
operands. -/
def Insn.wf (i : Insn) : Bool :=
  decide (i.op ≤ REIL_INSN_MAX) && i.a.wf && i.b.wf && i.c.wf

/-! In-memory instruction store (class CodeStorageMem): a dict from
(address, subindex) to raw serialized records, unserialized on
retrieval. -/

/-- The store contents: an association list keyed by (address, subindex). -/
abbrev Storage : Type := List ((Nat × Nat) × SInsn)

/-- Dictionary lookup in the store. -/
def slookup : Storage → Nat × Nat → Option SInsn
  | [], _ => none
  | (k, r) :: rest, q => if k = q then some r else slookup rest q

/-- CodeStorageMem._put_insn: dict assignment keyed by the address and
subindex of the record itself. -/
def storePut : Storage → SInsn → Storage
  | [], rec => [((rec.addr, rec.inum), rec)]
  | (k, r) :: rest, rec =>
    if k = (rec.addr, rec.inum) then (k, rec) :: rest
    else (k, r) :: storePut rest rec

/-- The single-instruction query inside CodeStorageMem.get_insn: a
missing key raises KeyError, a malformed record raises ParseError. -/
def memGetInsn1 (s : Storage) (addr inum : Nat) : Except PyErr Insn :=
  match slookup s (addr, inum) with
  | none => Except.error PyErr.keyErr
  | some rec =>
    match Insn.unserialize rec with
    | Except.ok i => Except.ok i
    | Except.error a => Except.error (PyErr.parseErr a)

/-- CodeStorageMem.get_insn with the subindex omitted: walk subindices
from inum upward collecting instructions until one carries ASM_END.  The
source loop ends by break or by an uncaught KeyError; fuel bounds the
walk and its exhaustion is reported as a distinct error. -/
def memGetInsnAll (s : Storage) (addr : Nat) : Nat → Nat → Except PyErr (List Insn)
  | 0, _ => Except.error PyErr.fuelErr
  | fuel + 1, inum =>
    match memGetInsn1 s addr inum with
    | Except.error e => Except.error e
    | Except.ok insn =>
      if insn.have_flag IOPT_ASM_END then Except.ok [insn]
      else
        match memGetInsnAll s addr fuel (inum + 1) with
        | Except.ok rest => Except.ok (insn :: rest)
        | Except.error e => Except.error e

/-! CFG parser (class CfgParser) over a pure in-memory store. -/

/-- CfgParser._get_bb: concatenate whole machine-instruction expansions,
starting at the given address and following the size field, until an
expansion whose last instruction carries BB_END.  The address is an
Option because a jump target address can be the Python value None, whose
store lookup raises KeyError. -/
def cfgGetBBRaw (s : Storage) : Nat → Option Nat → Except PyErr (List Insn)
  | _, none => Except.error PyErr.keyErr
  | 0, some _ => Except.error PyErr.fuelErr
  | fuel + 1, some a =>
    match memGetInsnAll s a (fuel + 1) 0 with
    | Except.error e => Except.error e
    | Except.ok l =>
      match l.getLast? with
      | none => Except.error PyErr.fuelErr
      | some last =>
        if last.have_flag IOPT_BB_END then Except.ok l
        else
          match cfgGetBBRaw s fuel (some (a + last.size)) with
          | Except.ok l2 => Except.ok (l ++ l2)
          | Except.error e => Except.error e

/-- The scan inside CfgParser.get_bb: the prefix of the remaining
instruction list up to and including the first BB_END instruction, or
None when no BB_END instruction remains. -/
def scanBB : List Insn → Option (List Insn)
  | [] => none
  | i :: rest =>
    if i.have_flag IOPT_BB_END then some [i]
    else (scanBB rest).map (fun l => i :: l)

/-- CfgParser.get_bb: rematerialize the run at the address and carve out
the basic block starting at the given subindex. -/
def getBB (s : Storage) (fuel : Nat) (addr : Option Nat) (inum : Nat) :
    Except PyErr (Option (List Insn)) :=
  match cfgGetBBRaw s fuel addr with
  | Except.error e => Except.error e
  | Except.ok l => Except.ok (scanBB (l.drop inum))

/-- A visitor-callback invocation observed during a traversal: the node
callback with the node key, or the edge callback with the source node
key and the target key. -/
inductive Event where
  | nodeEv (k : Nat × Nat)
  | edgeEv (src : Nat × Nat) (dst : Option Nat × Nat)
deriving DecidableEq, Repr

/-- The result a visitor produces: a boolean, or a raised exception. -/
inductive VRes where
  | ok (b : Bool)
  | exn (e : PyErr)
deriving DecidableEq, Repr

/-- The node and edge visitors (process_node, process_edge), abstract so
both the accepting defaults and overriding subclasses are instances. -/
structure Vis where
  pn : List Insn → VRes
  pe : List Insn → Option (List Insn) → VRes

/-- The default CfgParser visitors: both return True. -/
def defaultVis : Vis := ⟨fun _ => VRes.ok true, fun _ _ => VRes.ok true⟩

/-- Traversal state: the work stack of block-start addresses, the
visited-node list, the visited-edge list, and the instrumentation trace
of callback invocations. -/
structure TravSt where
  stack : List (Option Nat)
  nodes : List (Nat × Nat)
  edges : List ((Nat × Nat) × (Option Nat × Nat))
  trace : List Event
deriving Repr

/-- Outcome of one traversal step: continue, abort because a visitor
returned a falsy value (traverse returns False), or a raised exception. -/
inductive Flow where
  | cont (st : TravSt)
  | abort (st : TravSt)
  | exn (st : TravSt) (e : PyErr)

/-- The state carried by a step outcome. -/
def Flow.st : Flow → TravSt
  | Flow.cont st => st
  | Flow.abort st => st
  | Flow.exn st _ => st

/-- The node key of a basic block, read from its first instruction; the
lists handed over by the traversal are never empty. -/
def nkeyOf (l : List Insn) : Nat × Nat :=
  match l with
  | [] => (0, 0)
  | i :: _ => (i.addr, i.inum)

/-- traverse._process_node: a node not yet visited is recorded and its
visitor invoked; a falsy visitor result aborts, an exception propagates. -/
def procNode (vis : Vis) (bb : List Insn) (st : TravSt) : Flow :=
  let v := nkeyOf bb
  if v ∈ st.nodes then Flow.cont st
  else
    let st2 : TravSt := ⟨st.stack, st.nodes ++ [v], st.edges, st.trace ++ [Event.nodeEv v]⟩
    match vis.pn bb with
    | VRes.exn e => Flow.exn st2 e
    | VRes.ok true => Flow.cont st2
    | VRes.ok false => Flow.abort st2

/-- traverse._process_edge: an edge not yet visited is recorded, the
target block is materialized (an exception there propagates before the
callback runs), then the edge visitor is invoked. -/
def procEdge (s : Storage) (fuel : Nat) (vis : Vis) (bb : List Insn)
    (tgt : Option Nat × Nat) (st : TravSt) : Flow :=
  let e := (nkeyOf bb, tgt)
  if e ∈ st.edges then Flow.cont st
  else
    let st2 : TravSt := ⟨st.stack, st.nodes, st.edges ++ [e], st.trace⟩
    match getBB s fuel tgt.1 tgt.2 with
    | Except.error err => Flow.exn st2 err
    | Except.ok obb =>
      let st3 : TravSt := ⟨st2.stack, st2.nodes, st2.edges,
                           st2.trace ++ [Event.edgeEv (nkeyOf bb) tgt]⟩
      match vis.pe bb obb with
      | VRes.exn e2 => Flow.exn st3 e2
      | VRes.ok true => Flow.cont st3
      | VRes.ok false => Flow.abort st3

/-- traverse._stack_push: push the target address unless the target node
was already visited. -/
def stackPush (t : Option Nat × Nat) (st : TravSt) : TravSt :=
  let visited :=
    match t.1 with
    | none => false
    | some a => (a, t.2) ∈ st.nodes
  if visited then st else ⟨t.1 :: st.stack, st.nodes, st.edges, st.trace⟩

/-- The branch-target half of terminator processing: process the
jcc_loc edge, if any, then push its target. -/
def procRhs (s : Storage) (fuel : Nat) (vis : Vis) (insn : Insn)
    (bb : List Insn) (st : TravSt) : Flow :=
  match insn.jcc_loc with
  | some r =>
    (match procEdge s fuel vis bb r st with
     | Flow.cont st2 => Flow.cont (stackPush r st2)
     | o => o)
  | none => Flow.cont st

/-- The fallthrough half of terminator processing: process the next()
edge, if any, then push its target. -/
def procLhs (s : Storage) (fuel : Nat) (vis : Vis) (insn : Insn)
    (bb : List Insn) (st : TravSt) : Flow :=
  match insn.next with
  | some t =>
    (match procEdge s fuel vis bb t st with
     | Flow.cont st2 => Flow.cont (stackPush t st2)
     | o => o)
  | none => Flow.cont st

/-- Processing of one BB_END terminator inside the traversal loop: the
node first, then the branch-target edge, then the fallthrough edge. -/
def procBBEnd (s : Storage) (fuel : Nat) (vis : Vis) (insn : Insn)
    (bb : List Insn) (st : TravSt) : Flow :=
  match procNode vis bb st with
  | Flow.cont st1 =>
    (match procRhs s fuel vis insn bb st1 with
     | Flow.cont st2 => procLhs s fuel vis insn bb st2
     | o => o)
  | o => o

/-- The inner for-loop of traverse: accumulate instructions into the
current block and fire terminator processing at each BB_END flag. -/
def procList (s : Storage) (fuel : Nat) (vis : Vis) :
    List Insn → List Insn → TravSt → Flow
  | [], _, st => Flow.cont st
  | insn :: rest, bb, st =>
    let bb2 := bb ++ [insn]
    if insn.have_flag IOPT_BB_END then
      match procBBEnd s fuel vis insn bb2 st with
      | Flow.cont st2 => procList s fuel vis rest [] st2
      | o => o
    else procList s fuel vis rest bb2 st

/-- The value traverse returns: False when a visitor vetoed, or the
visited blocks rematerialized through get_bb. -/
inductive TravRet where
  | failed
  | blocks (bs : List (Option (List Insn)))
deriving DecidableEq, Repr

/-- The final mapping of visited node keys through get_bb. -/
def mapGetBB (s : Storage) (fuel : Nat) : List (Nat × Nat) →
    Except PyErr (List (Option (List Insn)))
  | [] => Except.ok []
  | k :: rest =>
    match getBB s fuel (some k.1) k.2 with
    | Except.error e => Except.error e
    | Except.ok obb =>
      match mapGetBB s fuel rest with
      | Except.error e => Except.error e
      | Except.ok l => Except.ok (obb :: l)

/-- The while loop of CfgParser.traverse, with the callback trace
returned alongside the outcome.  Each iteration materializes the run at
the current top address, splits it at BB_END flags, then pops the next
address; an empty stack ends the loop. -/
def travLoop (s : Storage) (fuelBB : Nat) (vis : Vis) :
    Nat → Option Nat → TravSt → List Event × Except PyErr TravRet
  | 0, _, st => (st.trace, Except.error PyErr.fuelErr)
  | fuel + 1, top, st =>
    match cfgGetBBRaw s fuelBB top with
    | Except.error e => (st.trace, Except.error e)
    | Except.ok insn_list =>
      match procList s fuelBB vis insn_list [] st with
      | Flow.abort st2 => (st2.trace, Except.ok TravRet.failed)
      | Flow.exn st2 e => (st2.trace, Except.error e)
      | Flow.cont st2 =>
        match st2.stack with
        | [] =>
          (st2.trace,
           match mapGetBB s fuelBB st2.nodes with
           | Except.error e => Except.error e
           | Except.ok bs => Except.ok (TravRet.blocks bs))
        | top2 :: rest =>
          travLoop s fuelBB vis fuel top2 ⟨rest, st2.nodes, st2.edges, st2.trace⟩

/-- CfgParser.traverse from a start address, with empty visited sets. -/
def traverse (s : Storage) (fuelBB : Nat) (vis : Vis) (loopFuel : Nat)
    (addr : Nat) : List Event × Except PyErr TravRet :=
  travLoop s fuelBB vis loopFuel (some addr) ⟨[], [], [], []⟩

/-- The node visitor of CodeStorageTranslator._CfgParser as written:
the method is declared without the self parameter, so invoking it
through the instance raises a TypeError before its body runs. -/
def buggyVis : Vis := ⟨fun _ => VRes.exn PyErr.tyErr, fun _ _ => VRes.ok true⟩

/-- CodeStorageTranslator.get_func over an already populated store: run
the internal CFG parser and return its accumulated instruction list,
which only the broken node visitor ever appends to. -/
def getFunc (s : Storage) (fuelBB : Nat) (loopFuel : Nat) (addr : Nat) :
    List Event × Except PyErr (List Insn) :=
  match traverse s fuelBB buggyVis loopFuel addr with
  | (tr, Except.ok _) => (tr, Except.ok ([] : List Insn))
  | (tr, Except.error e) => (tr, Except.error e)

/-! Translating cache (class CodeStorageTranslator). -/

/-- The mutable pieces of a CodeStorageTranslator: the backing store, the
optional Reader (modelled by its read_insn method), and the log of
addresses the Lifter was invoked for. -/
structure TransSt where
  storage : Storage
  reader : Option (Nat → Option (List Nat))
  lifts : List Nat

/-- CodeStorageTranslator.get_insn with the subindex omitted: query the
store and return a hit; on KeyError require a Reader (ReadError
otherwise), read the instruction bytes (ReadError when unmapped), invoke
the Lifter, insert every produced record into the store, and re-query.
Only KeyError triggers the fill path; other errors propagate. -/
def translatorGetInsn (lift : List Nat → Nat → List SInsn) (t : TransSt)
    (addr : Nat) (fuel : Nat) : Except PyErr (List Insn) × TransSt :=
  match memGetInsnAll t.storage addr fuel 0 with
  | Except.ok r => (Except.ok r, t)
  | Except.error PyErr.keyErr =>
    (match t.reader with
     | none => (Except.error (PyErr.readErr addr), t)
     | some rd =>
       match rd addr with
       | none => (Except.error (PyErr.readErr addr), t)
       | some data =>
         let ret := lift data addr
         let s2 := ret.foldl storePut t.storage
         (memGetInsnAll s2 addr fuel 0, ⟨s2, t.reader, t.lifts ++ [addr]⟩))
  | Except.error e => (Except.error e, t)

/-! Auxiliary definitions used by the statements below. -/

instance instDecEqExcept {ε α : Type} [DecidableEq ε] [DecidableEq α] :
    DecidableEq (Except ε α) := fun x y =>
  match x, y with
  | Except.ok a, Except.ok b =>
    if h : a = b then isTrue (by rw [h]) else isFalse (by intro hc; cases hc; exact h rfl)
  | Except.error a, Except.error b =>
    if h : a = b then isTrue (by rw [h]) else isFalse (by intro hc; cases hc; exact h rfl)
  | Except.ok _, Except.error _ => isFalse (by intro hc; cases hc)
  | Except.error _, Except.ok _ => isFalse (by intro hc; cases hc)

/-- Structural legality of one serialized operand tuple, phrased on the
record itself: the empty tuple, or a three-element tuple with a numeric
kind and width, a legal width and kind REG, TEMP or CONST (the value
slot is never inspected, matching the source). -/
def sargOK : List SField → Bool
  | [] => true
  | [t, sz, _] =>
    (match t, sz with
     | SField.fnum tn, SField.fnum szn =>
       legalSizeN szn && (tn == A_REG || tn == A_TEMP || tn == A_CONST)
     | _, _ => false)
  | _ => false

/-- Structural legality of a whole serialized record: a legal opcode
index, exactly three operand tuples, each one legal. -/
def recordOK (d : SInsn) : Bool :=
  decide (d.op ≤ REIL_INSN_MAX) && d.args.length == 3 && d.args.all sargOK

/-- The node keys of the node-callback invocations in a trace, in
order. -/
def nodeEvs : List Event → List (Nat × Nat)
  | [] => []
  | Event.nodeEv k :: r => k :: nodeEvs r
  | Event.edgeEv _ _ :: r => nodeEvs r

/-- The (source, target) pairs of the edge-callback invocations in a
trace, in order. -/
def edgeEvs : List Event → List ((Nat × Nat) × (Option Nat × Nat))
  | [] => []
  | Event.nodeEv _ :: r => edgeEvs r
  | Event.edgeEv a b :: r => (a, b) :: edgeEvs r

/-- The traversal-state invariant: the node callbacks fired so far are
exactly the recorded nodes (in order), the edge callbacks fired so far
are a subsequence of the recorded edges, and both records are free of
duplicates. -/
def TravInv (st : TravSt) : Prop :=
  nodeEvs st.trace = st.nodes
  ∧ List.Sublist (edgeEvs st.trace) st.edges
  ∧ st.nodes.Nodup
  ∧ st.edges.Nodup

/-! Theorems. -/

/-- The structural equality of symbolic values is reflexive. -/
theorem symEq_refl (x : Sym) : symEq x x = true := by
  induction x with
  | noneV => rfl
  | any => rfl
  | val n s => simp [symEq]
  | ptr v ih => simp [symEq, ih]
  | const v s => simp [symEq]
  | exp op a b iha ihb =>
    simp only [symEq, beq_self_eq_true, Bool.true_and]
    split
    · simp [iha, ihb]
    · simp [iha, ihb]

/-- A legally constructed operand survives the encode-decode round
trip unchanged. -/
theorem Arg.roundtrip (a : Arg) (h : a.wf = true) :
    Arg.unserialize a.serialize = some a := by
  obtain ⟨t, sz, nm, v⟩ := a
  simp only [Arg.wf, Bool.or_eq_true, Bool.and_eq_true, beq_iff_eq] at h
  rcases h with (⟨⟨⟨ht, hsz⟩, hnm⟩, hv⟩ | ⟨⟨ht, hsz⟩, hv⟩) | ⟨⟨⟨ht, hsz⟩, hnm⟩, hval⟩
  · subst ht; subst hsz; subst hnm; subst hv
    simp [Arg.serialize, Arg.unserialize, A_NONE, A_REG, A_TEMP]
  · cases sz with
    | none => exact (Bool.false_ne_true hsz).elim
    | some n =>
      have hsz2 : legalSizeN n = true := hsz
      subst hv
      rcases ht with ht | ht <;> subst ht <;>
        simp [Arg.serialize, Arg.unserialize, sfOfONat, hsz2, A_REG, A_TEMP, A_CONST]
  · cases sz with
    | none => exact (Bool.false_ne_true hsz).elim
    | some n =>
      have hsz2 : legalSizeN n = true := hsz
      subst ht; subst hnm
      simp [Arg.serialize, Arg.unserialize, sfOfONat, hsz2, A_REG, A_TEMP, A_CONST, A_NONE]

/-- Claim C2: for every legally constructed instruction (legal opcode
index, operand kinds and widths), serialize followed by unserialize
yields an identical instruction: same opcode, operands (kind, width,
name, value), flags, address and subindex. -/
theorem c2_serialize_unserialize_roundtrip (i : Insn) (h : i.wf = true) :
    Insn.unserialize i.serialize = Except.ok i := by
  obtain ⟨ad, sizee, inm, op, a, b, c, fl⟩ := i
  simp only [Insn.wf, Bool.and_eq_true, decide_eq_true_eq] at h
  obtain ⟨⟨⟨hop, ha⟩, hb⟩, hc⟩ := h
  simp [Insn.serialize, Insn.unserialize, Arg.roundtrip _ ha, Arg.roundtrip _ hb,
        Arg.roundtrip _ hc, Nat.not_lt.mpr hop]

/-- Witness for C2 at a concrete legal instruction. -/
theorem c2_serialize_unserialize_roundtrip_witness :
    Insn.wf ⟨0x100, 5, 2, I_ADD,
      ⟨A_REG, some U32, SField.fstr "eax", SField.fnum 0⟩,
      ⟨A_CONST, some U32, SField.fnone, SField.fnum 7⟩,
      ⟨A_TEMP, some U32, SField.fstr "V_01", SField.fnum 0⟩, 9⟩ = true
    ∧ Insn.unserialize (Insn.serialize ⟨0x100, 5, 2, I_ADD,
        ⟨A_REG, some U32, SField.fstr "eax", SField.fnum 0⟩,
        ⟨A_CONST, some U32, SField.fnone, SField.fnum 7⟩,
        ⟨A_TEMP, some U32, SField.fstr "V_01", SField.fnum 0⟩, 9⟩)
      = Except.ok ⟨0x100, 5, 2, I_ADD,
        ⟨A_REG, some U32, SField.fstr "eax", SField.fnum 0⟩,
        ⟨A_CONST, some U32, SField.fnone, SField.fnum 7⟩,
        ⟨A_TEMP, some U32, SField.fstr "V_01", SField.fnum 0⟩, 9⟩ :=
  ⟨by decide, c2_serialize_unserialize_roundtrip _ (by decide)⟩

/-- Counterexample to claim C3 as stated: for the constant operand of
width U8 with raw value 0x1FF, serialize records the raw value 0x1FF in
the value slot while get_val returns the masked value 0xFF, and the two
differ. -/
theorem c3_counterexample :
    (Arg.mk A_CONST (some U8) SField.fnone (SField.fnum 0x1FF)).get_val = some 0xFF
    ∧ (Arg.mk A_CONST (some U8) SField.fnone (SField.fnum 0x1FF)).serialize
        = [SField.fnum A_CONST, SField.fnum U8, SField.fnum 0x1FF]
    ∧ (0x1FF : Nat) ≠ 0xFF := by decide

/-- Claim C3 amended: for every Constant operand, canonical or not,
serialize records the raw value slot verbatim; and for a numeric raw
value the recorded value coincides with the get_val result exactly when
the raw value is already in canonical width-masked form. -/
theorem c3_serialize_records_raw_value (a : Arg) (hc : a.type = A_CONST) :
    a.serialize = [SField.fnum a.type, sfOfONat a.size, a.val]
    ∧ ∀ (v w : Nat), a.val = SField.fnum v → a.get_val = some w →
        (a.serialize = [SField.fnum a.type, sfOfONat a.size, SField.fnum w]
          ↔ w = v) := by
  have hser : a.serialize = [SField.fnum a.type, sfOfONat a.size, a.val] := by
    simp [Arg.serialize, hc, A_CONST, A_REG, A_TEMP, A_NONE]
  refine ⟨hser, fun v w hv _ => ?_⟩
  rw [hser, hv]
  constructor
  · intro h
    have h4 : v = w := by simpa using h
    exact h4.symm
  · intro h
    subst h
    rfl

/-- Witness for C3 amended: the unmasked constant raw 0x1FF of width U8
serializes as 0x1FF and not as its get_val 0xFF, and an already masked
constant serializes as its own value. -/
theorem c3_serialize_records_raw_value_witness :
    (Arg.mk A_CONST (some U8) SField.fnone (SField.fnum 0x1FF)).serialize
      = [SField.fnum A_CONST, SField.fnum U8, SField.fnum 0x1FF]
    ∧ ¬ (Arg.mk A_CONST (some U8) SField.fnone (SField.fnum 0x1FF)).serialize
        = [SField.fnum A_CONST, SField.fnum U8, SField.fnum 0xFF]
    ∧ (Arg.mk A_CONST (some U8) SField.fnone (SField.fnum 0x7F)).serialize
      = [SField.fnum A_CONST, SField.fnum U8, SField.fnum 0x7F] := by
  refine ⟨?_, ?_, ?_⟩
  · exact (c3_serialize_records_raw_value _ (by decide)).1
  · intro h
    have h2 := ((c3_serialize_records_raw_value _ (by decide)).2
      0x1FF 0xFF rfl (by decide)).mp h
    exact absurd h2 (by decide)
  · exact (c3_serialize_records_raw_value _ (by decide)).1

/-- Counterexample to claim C4 as stated: 1 and 2 are distinct constants,
yet the two subtractions with swapped operands compare equal, because SUB
is a member of the commutative tuple. -/
theorem c4_counterexample :
    symEq (Sym.const (some 1) none) (Sym.const (some 2) none) = false
    ∧ symEq (Sym.exp I_SUB (Sym.const (some 1) none) (Sym.const (some 2) none))
            (Sym.exp I_SUB (Sym.const (some 2) none) (Sym.const (some 1) none)) = true := by
  decide

/-- Claim C4 amended: for all symbolic operands a and b, the expressions
SUB(a, b) and SUB(b, a) compare equal, because SUB is in the commutative
opcode set of the expression equality. -/
theorem c4_sub_swapped_operands_equal (a b : Sym) :
    symEq (Sym.exp I_SUB a b) (Sym.exp I_SUB b a) = true := by
  simp [symEq, commutativeOps, I_SUB, I_ADD, I_AND, I_XOR, I_OR, symEq_refl]

/-- Claim C5: expression equality for an opcode in the commutative set
holds exactly when the operand pairs match in order or swapped; for an
opcode outside the set it requires the operands to match in order. -/
theorem c5_commutative_equality (op : Nat) (a b a2 b2 : Sym) :
    (commutativeOps.contains op = true →
      symEq (Sym.exp op a b) (Sym.exp op a2 b2)
        = ((symEq a a2 && symEq b b2) || (symEq b a2 && symEq a b2)))
    ∧ (commutativeOps.contains op = false →
      symEq (Sym.exp op a b) (Sym.exp op a2 b2)
        = (symEq a a2 && symEq b b2)) := by
  constructor <;> intro h
  · simp only [symEq]
    rw [if_pos (by simp only [beq_self_eq_true, Bool.true_and]; exact h)]
  · simp only [symEq]
    rw [if_neg (by simp only [beq_self_eq_true, Bool.true_and, h]; exact Bool.false_ne_true)]
    simp

/-- Witness for C5: the example from the specification, ADD of a
constant and a register value compared with the swapped operand order. -/
theorem c5_commutative_equality_witness :
    commutativeOps.contains I_ADD = true
    ∧ symEq (Sym.exp I_ADD (Sym.const (some 5) (some 32)) (Sym.val (SField.fstr "eax") (some 32)))
            (Sym.exp I_ADD (Sym.val (SField.fstr "eax") (some 32)) (Sym.const (some 5) (some 32)))
        = true := by
  refine ⟨by decide, ?_⟩
  rw [(c5_commutative_equality I_ADD _ _ _ _).1 (by decide)]
  decide

/-- Claim C6: the fallthrough successor is decided in priority order:
RET yields no successor; otherwise a conditional jump on a nonzero
constant without the CALL flag yields no successor; otherwise ASM_END
yields the first subinstruction of the following machine instruction;
otherwise the next subinstruction of the current machine instruction. -/
theorem c6_next_priority (i : Insn) :
    (i.have_flag IOPT_RET = true → i.next = none)
    ∧ (i.have_flag IOPT_RET = false →
        (i.op == I_JCC && i.a.type == A_CONST && !(i.a.get_val == some 0)
          && !i.have_flag IOPT_CALL) = true →
        i.next = none)
    ∧ (i.have_flag IOPT_RET = false →
        (i.op == I_JCC && i.a.type == A_CONST && !(i.a.get_val == some 0)
          && !i.have_flag IOPT_CALL) = false →
        i.have_flag IOPT_ASM_END = true →
        i.next = some (some (i.addr + i.size), 0))
    ∧ (i.have_flag IOPT_RET = false →
        (i.op == I_JCC && i.a.type == A_CONST && !(i.a.get_val == some 0)
          && !i.have_flag IOPT_CALL) = false →
        i.have_flag IOPT_ASM_END = false →
        i.next = some (some i.addr, i.inum + 1)) := by
  refine ⟨fun h1 => ?_, fun h1 h2 => ?_, fun h1 h2 h3 => ?_, fun h1 h2 h3 => ?_⟩
  · simp [Insn.next, h1]
  · simp [Insn.next, h1, h2]
  · simp [Insn.next, h1, h2, h3]
  · simp [Insn.next, h1, h2, h3]

/-- Witness for C6: an ASM_END instruction at 0x100 of size 5 falls
through to (0x105, 0), and an unflagged instruction at (0x100, 2) falls
through to (0x100, 3). -/
theorem c6_next_priority_witness :
    Insn.next ⟨0x100, 5, 0, I_STR,
      ⟨A_NONE, none, SField.fnone, SField.fnum 0⟩, ⟨A_NONE, none, SField.fnone, SField.fnum 0⟩,
      ⟨A_NONE, none, SField.fnone, SField.fnum 0⟩, IOPT_ASM_END⟩ = some (some 0x105, 0)
    ∧ Insn.next ⟨0x100, 5, 2, I_STR,
      ⟨A_NONE, none, SField.fnone, SField.fnum 0⟩, ⟨A_NONE, none, SField.fnone, SField.fnum 0⟩,
      ⟨A_NONE, none, SField.fnone, SField.fnum 0⟩, 0⟩ = some (some 0x100, 3) := by
  constructor
  · have h := (c6_next_priority ⟨0x100, 5, 0, I_STR,
      ⟨A_NONE, none, SField.fnone, SField.fnum 0⟩, ⟨A_NONE, none, SField.fnone, SField.fnum 0⟩,
      ⟨A_NONE, none, SField.fnone, SField.fnum 0⟩, IOPT_ASM_END⟩).2.2.1
      (by decide) (by decide) (by decide)
    simpa using h
  · have h := (c6_next_priority ⟨0x100, 5, 2, I_STR,
      ⟨A_NONE, none, SField.fnone, SField.fnum 0⟩, ⟨A_NONE, none, SField.fnone, SField.fnum 0⟩,
      ⟨A_NONE, none, SField.fnone, SField.fnum 0⟩, 0⟩).2.2.2
      (by decide) (by decide) (by decide)
    simpa using h

/-- The operand decoder succeeds exactly on structurally legal operand
tuples. -/
theorem Arg.unserialize_isSome (sa : List SField) :
    (Arg.unserialize sa).isSome = sargOK sa := by
  match sa with
  | [] => rfl
  | [t] => rfl
  | [t, s] => rfl
  | t :: s :: v :: w :: rest => rfl
  | [t, s, v] =>
    cases t with
    | fnum tn =>
      cases s with
      | fnum szn =>
        simp only [Arg.unserialize, sargOK]
        by_cases hsz : legalSizeN szn = true
        · rw [if_pos hsz, hsz]
          simp only [Bool.true_and]
          by_cases h12 : tn = A_REG ∨ tn = A_TEMP
          · rw [if_pos h12]
            rcases h12 with h | h <;> subst h <;> simp [A_REG, A_TEMP]
          · rw [if_neg h12]
            push_neg at h12
            have e1 : (tn == A_REG) = false := by
              simp [beq_eq_false_iff_ne, h12.1]
            have e2 : (tn == A_TEMP) = false := by
              simp [beq_eq_false_iff_ne, h12.2]
            by_cases h3 : tn = A_CONST
            · subst h3
              simp [e1, e2]
            · rw [if_neg h3]
              have e3 : (tn == A_CONST) = false := by
                simp [beq_eq_false_iff_ne, h3]
              simp [e1, e2, e3]
        · have hsz2 : legalSizeN szn = false := by
            revert hsz; cases legalSizeN szn <;> simp
          rw [if_neg hsz, hsz2]
          simp
      | fnone => rfl
      | fstr s2 => rfl
    | fnone => cases s <;> rfl
    | fstr s2 => cases s <;> rfl

/-- The instruction decoder on a record with three operand tuples and a
legal opcode reduces to the triple operand decode. -/
theorem Insn.unserialize_args3 (d : SInsn) (hop : d.op ≤ REIL_INSN_MAX)
    (sa sb sc : List SField) (hd : d.args = [sa, sb, sc]) :
    Insn.unserialize d =
      (match Arg.unserialize sa, Arg.unserialize sb, Arg.unserialize sc with
       | some a, some b, some c =>
         Except.ok ⟨d.addr, d.msize, d.inum, d.op, a, b, c, d.flags⟩
       | _, _, _ => Except.error d.addr) := by
  simp [Insn.unserialize, hd, Nat.not_lt.mpr hop]

/-- The instruction decoder rejects a record whose operand tuple count is
not three, raising ParseError with the record address. -/
theorem Insn.unserialize_arity (d : SInsn) (hop : d.op ≤ REIL_INSN_MAX)
    (hlen : d.args.length ≠ 3) :
    Insn.unserialize d = Except.error d.addr := by
  simp only [Insn.unserialize]
  rw [if_neg (Nat.not_lt.mpr hop)]
  rcases hd : d.args with _ | ⟨x, _ | ⟨y, _ | ⟨z, _ | ⟨w, rest⟩⟩⟩⟩
  · rfl
  · rfl
  · rfl
  · rw [hd] at hlen; simp at hlen
  · rfl

/-- Counterexample to claim C9 as stated: a record whose three operand
tuples all have arity 0 (arity other than 3) nevertheless decodes
successfully, as the three NONE operands. -/
theorem c9_counterexample :
    ((⟨0x42, 1, 0, 0, [[], [], []], 0⟩ : SInsn).args.all
        (fun sa => sa.length != 3) = true)
    ∧ Insn.unserialize ⟨0x42, 1, 0, 0, [[], [], []], 0⟩
        = Except.ok ⟨0x42, 1, 0, 0,
            ⟨A_NONE, none, SField.fnone, SField.fnum 0⟩,
            ⟨A_NONE, none, SField.fnone, SField.fnum 0⟩,
            ⟨A_NONE, none, SField.fnone, SField.fnum 0⟩, 0⟩ := by decide

/-- Claim C9 amended: decoding fails with an error carrying the record
address exactly when the record violates a structural invariant (opcode
index above the legal maximum, an operand tuple of arity other than 3 or
0, or an arity-3 operand tuple with an illegal width or a kind outside
REG, TEMP, CONST); records whose operand tuples are all legal, including
empty tuples decoding to the NONE operand, decode successfully. -/
theorem c9_decode_validation (d : SInsn) :
    (recordOK d = true → ∃ i, Insn.unserialize d = Except.ok i)
    ∧ (recordOK d = false → Insn.unserialize d = Except.error d.addr) := by
  constructor <;> intro h
  · simp only [recordOK, Bool.and_eq_true, decide_eq_true_eq, beq_iff_eq,
      List.all_eq_true] at h
    obtain ⟨⟨hop, hlen⟩, hall⟩ := h
    obtain ⟨sa, sb, sc, hd⟩ := List.length_eq_three.mp hlen
    have ea : (Arg.unserialize sa).isSome = true := by
      rw [Arg.unserialize_isSome]; exact hall sa (by rw [hd]; simp)
    have eb : (Arg.unserialize sb).isSome = true := by
      rw [Arg.unserialize_isSome]; exact hall sb (by rw [hd]; simp)
    have ec : (Arg.unserialize sc).isSome = true := by
      rw [Arg.unserialize_isSome]; exact hall sc (by rw [hd]; simp)
    obtain ⟨a, ha⟩ := Option.isSome_iff_exists.mp ea
    obtain ⟨b, hb⟩ := Option.isSome_iff_exists.mp eb
    obtain ⟨c, hc⟩ := Option.isSome_iff_exists.mp ec
    exact ⟨⟨d.addr, d.msize, d.inum, d.op, a, b, c, d.flags⟩,
      by rw [Insn.unserialize_args3 d hop sa sb sc hd, ha, hb, hc]⟩
  · by_cases hop : d.op ≤ REIL_INSN_MAX
    · by_cases hlen : d.args.length = 3
      · obtain ⟨sa, sb, sc, hd⟩ := List.length_eq_three.mp hlen
        rw [Insn.unserialize_args3 d hop sa sb sc hd]
        cases ha : Arg.unserialize sa <;> cases hb : Arg.unserialize sb <;>
          cases hc : Arg.unserialize sc <;> try rfl
        exfalso
        have ea : sargOK sa = true := by
          rw [← Arg.unserialize_isSome, ha]; rfl
        have eb : sargOK sb = true := by
          rw [← Arg.unserialize_isSome, hb]; rfl
        have ec : sargOK sc = true := by
          rw [← Arg.unserialize_isSome, hc]; rfl
        rw [recordOK, hd] at h
        simp [hop, ea, eb, ec] at h
      · exact Insn.unserialize_arity d hop hlen
    · have hgt : REIL_INSN_MAX < d.op := Nat.lt_of_not_le hop
      simp [Insn.unserialize, hgt]

/-- Witness for C9 amended: a legal record decodes, and a record with an
illegal operand width fails carrying its address. -/
theorem c9_decode_validation_witness :
    (∃ i, Insn.unserialize ⟨0x42, 1, 0, 0, [[], [], []], 1⟩ = Except.ok i)
    ∧ Insn.unserialize
        ⟨7, 1, 0, 0, [[SField.fnum A_CONST, SField.fnum 9, SField.fnum 0], [], []], 0⟩
        = Except.error 7 :=
  ⟨(c9_decode_validation _).1 (by decide),
   (c9_decode_validation _).2 (by decide)⟩

/-- Claim C10: the symbolic transfer of a memory store looks up the
current binding of the address operand c before rebinding the pointer,
so it raises KeyError exactly when c is unbound in the input state, and
succeeds whenever c is bound. -/
theorem c10_stm_requires_bound_address (i : Insn) (st : SymState)
    (hop : i.op = I_STM) :
    (stLookup st (Sym.val i.c.name i.c.size) = none →
        i.to_symbolic st = Except.error PyErr.keyErr)
    ∧ (∀ bound, stLookup st (Sym.val i.c.name i.c.size) = some bound →
        ∃ st2, i.to_symbolic st = Except.ok st2) := by
  constructor
  · intro h
    simp [Insn.to_symbolic, hop, I_STM, I_JCC, I_NONE, I_STR, I_LDM, h]
  · intro bound h
    have hok : (i.to_symbolic st).isOk = true := by
      simp [Insn.to_symbolic, hop, I_STM, I_JCC, I_NONE, I_STR, I_LDM, h, Except.isOk,
        Except.toBool]
    cases hts : i.to_symbolic st with
    | ok s => exact ⟨s, rfl⟩
    | error e => rw [hts] at hok; simp [Except.isOk, Except.toBool] at hok

/-- Witness for C10: a concrete memory store through an unbound register
fails with KeyError, and the same store succeeds once the register is
bound. -/
theorem c10_stm_requires_bound_address_witness :
    Insn.to_symbolic ⟨0, 1, 0, I_STM,
        ⟨A_REG, some U32, SField.fstr "eax", SField.fnum 0⟩,
        ⟨A_NONE, none, SField.fnone, SField.fnum 0⟩,
        ⟨A_REG, some U32, SField.fstr "ebx", SField.fnum 0⟩, 0⟩ []
      = Except.error PyErr.keyErr
    ∧ ∃ st2, Insn.to_symbolic ⟨0, 1, 0, I_STM,
        ⟨A_REG, some U32, SField.fstr "eax", SField.fnum 0⟩,
        ⟨A_NONE, none, SField.fnone, SField.fnum 0⟩,
        ⟨A_REG, some U32, SField.fstr "ebx", SField.fnum 0⟩, 0⟩
        [(Sym.val (SField.fstr "ebx") (some U32), Sym.const (some 5) (some U32))]
      = Except.ok st2 :=
  ⟨(c10_stm_requires_bound_address _ _ (by decide)).1 (by decide),
   (c10_stm_requires_bound_address _ _ (by decide)).2
     (Sym.const (some 5) (some U32)) (by decide)⟩

/-- Store lookup distributes over append: the left part is consulted
first. -/
theorem slookup_append (s1 s2 : Storage) (k : Nat × Nat) :
    slookup (s1 ++ s2) k =
      (match slookup s1 k with
       | none => slookup s2 k
       | some v => some v) := by
  induction s1 with
  | nil => rfl
  | cons hd tl ih =>
    obtain ⟨k0, r0⟩ := hd
    by_cases hk : k0 = k
    · simp [slookup, hk]
    · simp only [List.cons_append, slookup, if_neg hk]
      exact ih

/-- Inserting a record whose key is absent appends it at the end. -/
theorem storePut_fresh (s : Storage) (rec : SInsn)
    (h : slookup s (rec.addr, rec.inum) = none) :
    storePut s rec = s ++ [((rec.addr, rec.inum), rec)] := by
  induction s with
  | nil => rfl
  | cons hd tl ih =>
    obtain ⟨k0, r0⟩ := hd
    simp only [slookup] at h
    by_cases hk : k0 = (rec.addr, rec.inum)
    · rw [if_pos hk] at h; cases h
    · rw [if_neg hk] at h
      simp only [storePut, if_neg hk, List.cons_append]
      rw [ih h]

/-- Filling a store with records at pairwise distinct fresh keys appends
them all in order. -/
theorem foldl_storePut_fresh (L : List SInsn) (s : Storage)
    (hfresh : ∀ r ∈ L, slookup s (r.addr, r.inum) = none)
    (hkeys : (L.map (fun r => (r.addr, r.inum))).Nodup) :
    L.foldl storePut s = s ++ L.map (fun r => ((r.addr, r.inum), r)) := by
  induction L generalizing s with
  | nil => simp
  | cons r0 rest ih =>
    simp only [List.foldl_cons]
    rw [storePut_fresh s r0 (hfresh r0 (by simp))]
    simp only [List.map_cons, List.nodup_cons] at hkeys
    rw [ih (s ++ [((r0.addr, r0.inum), r0)])
      (fun r hr => ?_) hkeys.2]
    · simp
    · rw [slookup_append, hfresh r (by simp [hr])]
      have hne : (r0.addr, r0.inum) ≠ (r.addr, r.inum) := by
        intro he
        exact hkeys.1 (he ▸ List.mem_map_of_mem (fun r => (r.addr, r.inum)) hr)
      simp [slookup, hne]

/-- In the store built from records at pairwise distinct keys, every
record is found under its own key. -/
theorem slookup_map_self (L : List SInsn)
    (hkeys : (L.map (fun r => (r.addr, r.inum))).Nodup) :
    ∀ r ∈ L, slookup (L.map (fun r => ((r.addr, r.inum), r))) (r.addr, r.inum)
      = some r := by
  induction L with
  | nil => intro r hr; cases hr
  | cons r0 rest ih =>
    intro r hr
    simp only [List.map_cons, List.nodup_cons] at hkeys
    rcases List.mem_cons.mp hr with he | hm
    · subst he
      simp [slookup]
    · have hne : (r0.addr, r0.inum) ≠ (r.addr, r.inum) := by
        intro he
        exact hkeys.1 (he ▸ List.mem_map_of_mem (fun r => (r.addr, r.inum)) hm)
      simp only [List.map_cons, slookup, if_neg hne]
      exact ih hkeys.2 r hm

/-- Claim C8: the translating cache.  On an empty store with a
configured Reader and Lifter whose output is readable back, get_insn
invokes the Lifter exactly once for the address, inserts every produced
record into the backing store, and returns the store result; a second
call for the same address returns the same result with no further
Lifter invocation; a miss with no Reader, or a Reader that reports the
address unmapped, fails with a read error carrying the address. -/
theorem c8_translator_cache (lift : List Nat → Nat → List SInsn)
    (rd : Nat → Option (List Nat)) (data : List Nat) (L : List SInsn)
    (M : List Insn) (addr f : Nat)
    (hrd : rd addr = some data) (hlift : lift data addr = L)
    (hkeys : (L.map (fun r => (r.addr, r.inum))).Nodup)
    (hwalk : memGetInsnAll (L.foldl storePut []) addr (f + 1) 0 = Except.ok M) :
    (translatorGetInsn lift ⟨[], some rd, []⟩ addr (f + 1)).1 = Except.ok M
    ∧ (translatorGetInsn lift ⟨[], some rd, []⟩ addr (f + 1)).2.lifts = [addr]
    ∧ (∀ r ∈ L,
        slookup (translatorGetInsn lift ⟨[], some rd, []⟩ addr (f + 1)).2.storage
          (r.addr, r.inum) = some r)
    ∧ (translatorGetInsn lift
        (translatorGetInsn lift ⟨[], some rd, []⟩ addr (f + 1)).2 addr (f + 1)).1
      = Except.ok M
    ∧ (translatorGetInsn lift
        (translatorGetInsn lift ⟨[], some rd, []⟩ addr (f + 1)).2 addr (f + 1)).2.lifts
      = [addr]
    ∧ (∀ (a2 f2 : Nat), (translatorGetInsn lift ⟨[], none, []⟩ a2 (f2 + 1)).1
        = Except.error (PyErr.readErr a2))
    ∧ (∀ (a2 f2 : Nat) (rd2 : Nat → Option (List Nat)), rd2 a2 = none →
        (translatorGetInsn lift ⟨[], some rd2, []⟩ a2 (f2 + 1)).1
          = Except.error (PyErr.readErr a2)) := by
  have hmiss : memGetInsnAll ([] : Storage) addr (f + 1) 0
      = Except.error PyErr.keyErr := rfl
  have h1 : translatorGetInsn lift ⟨[], some rd, []⟩ addr (f + 1)
      = (Except.ok M, ⟨L.foldl storePut [], some rd, [addr]⟩) := by
    simp only [translatorGetInsn, hmiss, hrd, hlift, hwalk]
    rfl
  have hstore : (L.foldl storePut ([] : Storage))
      = L.map (fun r => ((r.addr, r.inum), r)) := by
    rw [foldl_storePut_fresh L [] (fun r _ => rfl) hkeys]
    rfl
  have h2 : translatorGetInsn lift ⟨L.foldl storePut [], some rd, [addr]⟩ addr (f + 1)
      = (Except.ok M, ⟨L.foldl storePut [], some rd, [addr]⟩) := by
    simp only [translatorGetInsn, hwalk]
  refine ⟨by rw [h1], by rw [h1], ?_, by rw [h1, h2], by rw [h1, h2], ?_, ?_⟩
  · intro r hr
    rw [h1]
    show slookup (L.foldl storePut []) (r.addr, r.inum) = some r
    rw [hstore]
    exact slookup_map_self L hkeys r hr
  · intro a2 f2
    rfl
  · intro a2 f2 rd2 hrd2
    have hmiss2 : memGetInsnAll ([] : Storage) a2 (f2 + 1) 0
        = Except.error PyErr.keyErr := rfl
    simp only [translatorGetInsn, hmiss2, hrd2]

/-- Witness for C8 at a concrete one-record Lifter and Reader. -/
theorem c8_translator_cache_witness :
    (translatorGetInsn
        (fun _ a => [⟨a, 2, 0, I_STR, [[], [], []], IOPT_ASM_END⟩])
        ⟨[], some (fun a => if a == 0x100 then some [0x90] else none), []⟩
        0x100 5).1
      = Except.ok [⟨0x100, 2, 0, I_STR,
          ⟨A_NONE, none, SField.fnone, SField.fnum 0⟩, ⟨A_NONE, none, SField.fnone, SField.fnum 0⟩,
          ⟨A_NONE, none, SField.fnone, SField.fnum 0⟩, IOPT_ASM_END⟩]
    ∧ (translatorGetInsn
        (fun _ a => [⟨a, 2, 0, I_STR, [[], [], []], IOPT_ASM_END⟩])
        ⟨[], some (fun a => if a == 0x100 then some [0x90] else none), []⟩
        0x100 5).2.lifts = [0x100] := by
  have h := c8_translator_cache
    (fun _ a => [⟨a, 2, 0, I_STR, [[], [], []], IOPT_ASM_END⟩])
    (fun a => if a == 0x100 then some [0x90] else none)
    [0x90]
    [⟨0x100, 2, 0, I_STR, [[], [], []], IOPT_ASM_END⟩]
    [⟨0x100, 2, 0, I_STR,
      ⟨A_NONE, none, SField.fnone, SField.fnum 0⟩, ⟨A_NONE, none, SField.fnone, SField.fnum 0⟩,
      ⟨A_NONE, none, SField.fnone, SField.fnum 0⟩, IOPT_ASM_END⟩]
    0x100 4 (by decide) rfl (by decide) (by decide)
  exact ⟨h.1, h.2.1⟩

/-- A successful getLast? result is a member of the list. -/
theorem getLast?_mem_list {α : Type} {l : List α} {x : α}
    (h : l.getLast? = some x) : x ∈ l := by
  have hx : x ∈ l.getLast? := by rw [Option.mem_def]; exact h
  obtain ⟨hne, he⟩ := List.mem_getLast?_eq_getLast hx
  rw [he]
  exact List.getLast_mem hne

/-- Every run the block materializer returns contains a BB_END
instruction (its last machine expansion ends one). -/
theorem cfgGetBBRaw_has_bbend (s : Storage) :
    ∀ (fuel : Nat) (top : Option Nat) (l : List Insn),
      cfgGetBBRaw s fuel top = Except.ok l →
      ∃ i ∈ l, i.have_flag IOPT_BB_END = true := by
  intro fuel
  induction fuel with
  | zero =>
    intro top l h
    cases top <;> cases h
  | succ fuel ih =>
    intro top l h
    cases top with
    | none => cases h
    | some a =>
      simp only [cfgGetBBRaw] at h
      cases hm : memGetInsnAll s a (fuel + 1) 0 with
      | error e =>
        simp only [hm] at h
        exact Except.noConfusion h
      | ok l0 =>
        simp only [hm] at h
        cases hl : l0.getLast? with
        | none =>
          simp only [hl] at h
          exact Except.noConfusion h
        | some last =>
          simp only [hl] at h
          by_cases hbb : last.have_flag IOPT_BB_END = true
          · rw [if_pos hbb] at h
            injection h with h2
            subst h2
            exact ⟨last, getLast?_mem_list hl, hbb⟩
          · rw [if_neg hbb] at h
            cases hr : cfgGetBBRaw s fuel (some (a + last.size)) with
            | error e =>
              simp only [hr] at h
              exact Except.noConfusion h
            | ok l2 =>
              simp only [hr] at h
              injection h with h2
              subst h2
              obtain ⟨i, hi, hib⟩ := ih (some (a + last.size)) l2 hr
              exact ⟨i, List.mem_append_right l0 hi, hib⟩

/-- With the broken node visitor and an empty visited set, the inner
loop raises TypeError as soon as it meets a BB_END instruction. -/
theorem procList_buggy (s : Storage) (fuel : Nat) :
    ∀ (l bb : List Insn) (st : TravSt), st.nodes = [] →
      (∃ i ∈ l, i.have_flag IOPT_BB_END = true) →
      ∃ st2, procList s fuel buggyVis l bb st = Flow.exn st2 PyErr.tyErr := by
  intro l
  induction l with
  | nil =>
    intro bb st _ hex
    obtain ⟨i, hi, _⟩ := hex
    cases hi
  | cons i0 rest ih =>
    intro bb st hst hex
    by_cases hbb : i0.have_flag IOPT_BB_END = true
    · have hb : procBBEnd s fuel buggyVis i0 (bb ++ [i0]) st =
          Flow.exn ⟨st.stack, st.nodes ++ [nkeyOf (bb ++ [i0])], st.edges,
            st.trace ++ [Event.nodeEv (nkeyOf (bb ++ [i0]))]⟩ PyErr.tyErr := by
        have hnmem : nkeyOf (bb ++ [i0]) ∉ st.nodes := by rw [hst]; simp
        simp [procBBEnd, procNode, hnmem, buggyVis]
      simp only [procList, hbb, if_true, hb]
      exact ⟨_, rfl⟩
    · have hbf : i0.have_flag IOPT_BB_END = false := by
        revert hbb; cases i0.have_flag IOPT_BB_END <;> simp
      simp only [procList, hbf, Bool.false_eq_true, if_false]
      refine ih (bb ++ [i0]) st hst ?_
      obtain ⟨i, hi, hib⟩ := hex
      rcases List.mem_cons.mp hi with he | hm
      · subst he; exact absurd hib hbb
      · exact ⟨i, hm, hib⟩

/-- Claim C1 (the code defect): get_func never returns an instruction
sequence.  Its internal CFG parser declares process_node without the
self parameter, so the first node callback of any traversal raises
TypeError; a start address whose block is missing from the cache fails
too.  At a concrete one-block program the failure is TypeError even
though get_bb materializes the block fine. -/
theorem c1_get_func_always_raises :
    (∀ (s : Storage) (fuelBB loopFuel addr : Nat) (r : List Insn),
        (getFunc s fuelBB loopFuel addr).2 ≠ Except.ok r)
    ∧ getFunc [((0, 0), ⟨0, 1, 0, I_STR, [[], [], []], 14⟩)] 5 5 0
        = ([Event.nodeEv (0, 0)], Except.error PyErr.tyErr)
    ∧ getBB [((0, 0), ⟨0, 1, 0, I_STR, [[], [], []], 14⟩)] 5 (some 0) 0
        = Except.ok (some [⟨0, 1, 0, I_STR,
            ⟨A_NONE, none, SField.fnone, SField.fnum 0⟩, ⟨A_NONE, none, SField.fnone, SField.fnum 0⟩,
            ⟨A_NONE, none, SField.fnone, SField.fnum 0⟩, 14⟩]) := by
  refine ⟨?_, by decide, by decide⟩
  intro s fuelBB loopFuel addr r hok
  unfold getFunc at hok
  cases ht : traverse s fuelBB buggyVis loopFuel addr with
  | mk tr out =>
    simp only [ht] at hok
    cases out with
    | error e => simp at hok
    | ok ret =>
      unfold traverse at ht
      cases loopFuel with
      | zero =>
        simp only [travLoop] at ht
        simp at ht
      | succ lf =>
        simp only [travLoop] at ht
        cases hraw : cfgGetBBRaw s fuelBB (some addr) with
        | error e =>
          simp only [hraw] at ht
          simp at ht
        | ok insn_list =>
          simp only [hraw] at ht
          obtain ⟨st2, hpl⟩ := procList_buggy s fuelBB insn_list []
            ⟨[], [], [], []⟩ rfl (cfgGetBBRaw_has_bbend s fuelBB (some addr) insn_list hraw)
          simp only [hpl] at ht
          simp at ht

/-- Node-callback keys distribute over trace concatenation. -/
theorem nodeEvs_append (l1 l2 : List Event) :
    nodeEvs (l1 ++ l2) = nodeEvs l1 ++ nodeEvs l2 := by
  induction l1 with
  | nil => rfl
  | cons e rest ih => cases e <;> simp [nodeEvs, ih]

/-- Edge-callback pairs distribute over trace concatenation. -/
theorem edgeEvs_append (l1 l2 : List Event) :
    edgeEvs (l1 ++ l2) = edgeEvs l1 ++ edgeEvs l2 := by
  induction l1 with
  | nil => rfl
  | cons e rest ih => cases e <;> simp [edgeEvs, ih]

/-- Appending one fresh element keeps a list duplicate-free. -/
theorem nodup_snoc {α : Type} (l : List α) (x : α) (h1 : l.Nodup)
    (h2 : x ∉ l) : (l ++ [x]).Nodup := by
  rw [List.nodup_append]
  exact ⟨h1, List.nodup_singleton x,
    fun a ha hx => h2 ((List.mem_singleton.mp hx) ▸ ha)⟩

/-- The node-processing step preserves the traversal invariant. -/
theorem procNode_inv (vis : Vis) (bb : List Insn) (st : TravSt)
    (h : TravInv st) : TravInv (procNode vis bb st).st := by
  simp only [procNode]
  split
  · exact h
  · rename_i hm
    obtain ⟨h1, h2, h3, h4⟩ := h
    have hinv : TravInv ⟨st.stack, st.nodes ++ [nkeyOf bb], st.edges,
        st.trace ++ [Event.nodeEv (nkeyOf bb)]⟩ := by
      refine ⟨?_, ?_, nodup_snoc _ _ h3 hm, h4⟩
      · rw [nodeEvs_append, h1]; rfl
      · rw [edgeEvs_append]
        simpa [edgeEvs] using h2
    split
    · exact hinv
    · exact hinv
    · exact hinv

/-- The edge-processing step preserves the traversal invariant. -/
theorem procEdge_inv (s : Storage) (fuel : Nat) (vis : Vis) (bb : List Insn)
    (tgt : Option Nat × Nat) (st : TravSt) (h : TravInv st) :
    TravInv (procEdge s fuel vis bb tgt st).st := by
  simp only [procEdge]
  split
  · exact h
  · rename_i hm
    obtain ⟨h1, h2, h3, h4⟩ := h
    have hinv2 : TravInv ⟨st.stack, st.nodes, st.edges ++ [(nkeyOf bb, tgt)],
        st.trace⟩ :=
      ⟨h1, h2.trans (List.sublist_append_left _ _), h3, nodup_snoc _ _ h4 hm⟩
    have hinv3 : TravInv ⟨st.stack, st.nodes, st.edges ++ [(nkeyOf bb, tgt)],
        st.trace ++ [Event.edgeEv (nkeyOf bb) tgt]⟩ := by
      refine ⟨?_, ?_, h3, nodup_snoc _ _ h4 hm⟩
      · rw [nodeEvs_append, h1]
        simp [nodeEvs]
      · rw [edgeEvs_append]
        exact List.Sublist.append h2 (List.Sublist.refl _)
    split
    · exact hinv2
    · split
      · exact hinv3
      · exact hinv3
      · exact hinv3

/-- Pushing a stack entry leaves nodes, edges and trace unchanged, so it
preserves the invariant. -/
theorem stackPush_inv (t : Option Nat × Nat) (st : TravSt)
    (h : TravInv st) : TravInv (stackPush t st) := by
  simp only [stackPush]
  split
  · exact h
  · exact h

/-- The stack push does not alter the trace. -/
theorem stackPush_trace (t : Option Nat × Nat) (st : TravSt) :
    (stackPush t st).trace = st.trace := by
  simp only [stackPush]
  split <;> rfl

/-- The branch-target half of terminator processing preserves the
invariant. -/
theorem procRhs_inv (s : Storage) (fuel : Nat) (vis : Vis) (insn : Insn)
    (bb : List Insn) (st : TravSt) (h : TravInv st) :
    TravInv (procRhs s fuel vis insn bb st).st := by
  simp only [procRhs]
  cases hjcc : insn.jcc_loc with
  | none => exact h
  | some r0 =>
    show TravInv (match procEdge s fuel vis bb r0 st with
      | Flow.cont st2 => Flow.cont (stackPush r0 st2)
      | o => o).st
    split
    · rename_i st2 he
      have h2 := procEdge_inv s fuel vis bb r0 st h
      rw [he] at h2
      exact stackPush_inv r0 st2 h2
    · exact procEdge_inv s fuel vis bb r0 st h

/-- The fallthrough half of terminator processing preserves the
invariant. -/
theorem procLhs_inv (s : Storage) (fuel : Nat) (vis : Vis) (insn : Insn)
    (bb : List Insn) (st : TravSt) (h : TravInv st) :
    TravInv (procLhs s fuel vis insn bb st).st := by
  simp only [procLhs]
  cases hnext : insn.next with
  | none => exact h
  | some t0 =>
    show TravInv (match procEdge s fuel vis bb t0 st with
      | Flow.cont st2 => Flow.cont (stackPush t0 st2)
      | o => o).st
    split
    · rename_i st2 he
      have h2 := procEdge_inv s fuel vis bb t0 st h
      rw [he] at h2
      exact stackPush_inv t0 st2 h2
    · exact procEdge_inv s fuel vis bb t0 st h

/-- Terminator processing preserves the invariant. -/
theorem procBBEnd_inv (s : Storage) (fuel : Nat) (vis : Vis) (insn : Insn)
    (bb : List Insn) (st : TravSt) (h : TravInv st) :
    TravInv (procBBEnd s fuel vis insn bb st).st := by
  simp only [procBBEnd]
  have hn := procNode_inv vis bb st h
  split
  · rename_i st1 he1
    rw [he1] at hn
    have hr := procRhs_inv s fuel vis insn bb st1 hn
    split
    · rename_i st2 he2
      rw [he2] at hr
      exact procLhs_inv s fuel vis insn bb st2 hr
    · exact hr
  · exact hn

/-- The inner loop preserves the invariant. -/
theorem procList_inv (s : Storage) (fuel : Nat) (vis : Vis) :
    ∀ (l bb : List Insn) (st : TravSt), TravInv st →
      TravInv (procList s fuel vis l bb st).st := by
  intro l
  induction l with
  | nil => intro bb st h; exact h
  | cons i0 rest ih =>
    intro bb st h
    simp only [procList]
    split
    · have hb := procBBEnd_inv s fuel vis i0 (bb ++ [i0]) st h
      split
      · rename_i st2 he
        rw [he] at hb
        exact ih [] st2 hb
      · exact hb
    · exact ih (bb ++ [i0]) st h

/-- The traversal loop always reports the trace of an invariant-holding
state. -/
theorem travLoop_inv (s : Storage) (fuelBB : Nat) (vis : Vis) :
    ∀ (fuel : Nat) (top : Option Nat) (st : TravSt), TravInv st →
      ∃ st2, (travLoop s fuelBB vis fuel top st).1 = st2.trace ∧ TravInv st2 := by
  intro fuel
  induction fuel with
  | zero => intro top st h; exact ⟨st, rfl, h⟩
  | succ fuel ih =>
    intro top st h
    simp only [travLoop]
    cases hraw : cfgGetBBRaw s fuelBB top with
    | error e =>
      simp only [hraw]
      exact ⟨st, rfl, h⟩
    | ok insn_list =>
      simp only [hraw]
      have hpl := procList_inv s fuelBB vis insn_list [] st h
      cases hfl : procList s fuelBB vis insn_list [] st with
      | abort st2 =>
        rw [hfl] at hpl
        exact ⟨st2, rfl, hpl⟩
      | exn st2 e =>
        rw [hfl] at hpl
        exact ⟨st2, rfl, hpl⟩
      | cont st2 =>
        rw [hfl] at hpl
        show ∃ st3, (match st2.stack with
            | [] => (st2.trace,
                match mapGetBB s fuelBB st2.nodes with
                | Except.error e => Except.error e
                | Except.ok bs => Except.ok (TravRet.blocks bs))
            | top2 :: rest => travLoop s fuelBB vis fuel top2
                ⟨rest, st2.nodes, st2.edges, st2.trace⟩).1 = st3.trace ∧ TravInv st3
        cases hs : st2.stack with
        | nil => exact ⟨st2, rfl, hpl⟩
        | cons top2 rest =>
          exact ih top2 ⟨rest, st2.nodes, st2.edges, st2.trace⟩ hpl

/-- The node-processing step appends at most one node event for the
current block. -/
theorem procNode_trace (vis : Vis) (bb : List Insn) (st : TravSt) :
    ∃ n, (procNode vis bb st).st.trace = st.trace ++ n
      ∧ ∀ e ∈ n, e = Event.nodeEv (nkeyOf bb) := by
  simp only [procNode]
  split
  · exact ⟨[], by simp [Flow.st], by simp⟩
  · split
    · exact ⟨[Event.nodeEv (nkeyOf bb)], rfl, by simp⟩
    · exact ⟨[Event.nodeEv (nkeyOf bb)], rfl, by simp⟩
    · exact ⟨[Event.nodeEv (nkeyOf bb)], rfl, by simp⟩

/-- The edge-processing step appends at most one edge event, for exactly
the processed target. -/
theorem procEdge_trace (s : Storage) (fuel : Nat) (vis : Vis)
    (bb : List Insn) (tgt : Option Nat × Nat) (st : TravSt) :
    ∃ r, (procEdge s fuel vis bb tgt st).st.trace = st.trace ++ r
      ∧ ∀ e ∈ r, e = Event.edgeEv (nkeyOf bb) tgt := by
  simp only [procEdge]
  split
  · exact ⟨[], by simp [Flow.st], by simp⟩
  · split
    · exact ⟨[], by simp [Flow.st], by simp⟩
    · split
      · exact ⟨[Event.edgeEv (nkeyOf bb) tgt], rfl, by simp⟩
      · exact ⟨[Event.edgeEv (nkeyOf bb) tgt], rfl, by simp⟩
      · exact ⟨[Event.edgeEv (nkeyOf bb) tgt], rfl, by simp⟩

/-- The branch-target half appends only edge events for the jcc_loc
target. -/
theorem procRhs_trace (s : Storage) (fuel : Nat) (vis : Vis) (insn : Insn)
    (bb : List Insn) (st : TravSt) :
    ∃ r, (procRhs s fuel vis insn bb st).st.trace = st.trace ++ r
      ∧ ∀ e ∈ r, ∃ t, insn.jcc_loc = some t ∧ e = Event.edgeEv (nkeyOf bb) t := by
  simp only [procRhs]
  cases hjcc : insn.jcc_loc with
  | none => exact ⟨[], by simp [Flow.st], by simp⟩
  | some r0 =>
    obtain ⟨r, hr, hre⟩ := procEdge_trace s fuel vis bb r0 st
    show ∃ r, (match procEdge s fuel vis bb r0 st with
          | Flow.cont st2 => Flow.cont (stackPush r0 st2)
          | o => o).st.trace = st.trace ++ r
        ∧ ∀ e ∈ r, ∃ t, (some r0 : Option (Option Nat × Nat)) = some t
            ∧ e = Event.edgeEv (nkeyOf bb) t
    split
    · rename_i st2 he
      rw [he] at hr
      simp only [Flow.st] at hr
      refine ⟨r, ?_, fun e hme => ⟨r0, rfl, hre e hme⟩⟩
      show (stackPush r0 st2).trace = st.trace ++ r
      rw [stackPush_trace]
      exact hr
    · exact ⟨r, hr, fun e hme => ⟨r0, rfl, hre e hme⟩⟩

/-- The fallthrough half appends only edge events for the next()
target. -/
theorem procLhs_trace (s : Storage) (fuel : Nat) (vis : Vis) (insn : Insn)
    (bb : List Insn) (st : TravSt) :
    ∃ l, (procLhs s fuel vis insn bb st).st.trace = st.trace ++ l
      ∧ ∀ e ∈ l, ∃ t, insn.next = some t ∧ e = Event.edgeEv (nkeyOf bb) t := by
  simp only [procLhs]
  cases hnext : insn.next with
  | none => exact ⟨[], by simp [Flow.st], by simp⟩
  | some t0 =>
    obtain ⟨l, hl, hle⟩ := procEdge_trace s fuel vis bb t0 st
    show ∃ l, (match procEdge s fuel vis bb t0 st with
          | Flow.cont st2 => Flow.cont (stackPush t0 st2)
          | o => o).st.trace = st.trace ++ l
        ∧ ∀ e ∈ l, ∃ t, (some t0 : Option (Option Nat × Nat)) = some t
            ∧ e = Event.edgeEv (nkeyOf bb) t
    split
    · rename_i st2 he
      rw [he] at hl
      simp only [Flow.st] at hl
      refine ⟨l, ?_, fun e hme => ⟨t0, rfl, hle e hme⟩⟩
      show (stackPush t0 st2).trace = st.trace ++ l
      rw [stackPush_trace]
      exact hl
    · exact ⟨l, hl, fun e hme => ⟨t0, rfl, hle e hme⟩⟩

/-- Claim C7: visitor discipline of the traversal.  First, on every run
the node callback fires at most once per (address, subindex) node and
the edge callback at most once per (source, target) pair.  Second, each
terminator is processed by firing at most one node event, then edge
events only for the branch target (jcc_loc), then edge events only for
the fallthrough (next), in that order.  Third, on a concrete cyclic
two-block program (block B branches back to block A), the traversal
terminates with each node and each edge visited exactly once. -/
theorem c7_traverse_visitor_discipline :
    (∀ (s : Storage) (fuelBB : Nat) (vis : Vis) (loopFuel addr : Nat),
        (nodeEvs (traverse s fuelBB vis loopFuel addr).1).Nodup
        ∧ (edgeEvs (traverse s fuelBB vis loopFuel addr).1).Nodup)
    ∧ (∀ (s : Storage) (fuelBB : Nat) (vis : Vis) (insn : Insn)
        (bb : List Insn) (st : TravSt),
        ∃ n r l : List Event,
          (procBBEnd s fuelBB vis insn bb st).st.trace
              = st.trace ++ (n ++ (r ++ l))
          ∧ (∀ e ∈ n, e = Event.nodeEv (nkeyOf bb))
          ∧ (∀ e ∈ r, ∃ t, insn.jcc_loc = some t
                ∧ e = Event.edgeEv (nkeyOf bb) t)
          ∧ (∀ e ∈ l, ∃ t, insn.next = some t
                ∧ e = Event.edgeEv (nkeyOf bb) t))
    ∧ traverse
        [((0, 0), ⟨0, 1, 0, I_JCC,
            [[SField.fnum A_CONST, SField.fnum U1, SField.fnum 1], [],
             [SField.fnum A_CONST, SField.fnum U32, SField.fnum 1]], 12⟩),
         ((1, 0), ⟨1, 1, 0, I_JCC,
            [[SField.fnum A_CONST, SField.fnum U1, SField.fnum 1], [],
             [SField.fnum A_CONST, SField.fnum U32, SField.fnum 0]], 12⟩)]
        5 defaultVis 5 0
      = ([Event.nodeEv (0, 0), Event.edgeEv (0, 0) (some 1, 0),
          Event.nodeEv (1, 0), Event.edgeEv (1, 0) (some 0, 0)],
         Except.ok (TravRet.blocks
           [some [⟨0, 1, 0, I_JCC,
               ⟨A_CONST, some U1, SField.fnone, SField.fnum 1⟩,
               ⟨A_NONE, none, SField.fnone, SField.fnum 0⟩,
               ⟨A_CONST, some U32, SField.fnone, SField.fnum 1⟩, 12⟩],
            some [⟨1, 1, 0, I_JCC,
               ⟨A_CONST, some U1, SField.fnone, SField.fnum 1⟩,
               ⟨A_NONE, none, SField.fnone, SField.fnum 0⟩,
               ⟨A_CONST, some U32, SField.fnone, SField.fnum 0⟩, 12⟩]])) := by
  refine ⟨?_, ?_, by decide⟩
  · intro s fuelBB vis loopFuel addr
    obtain ⟨st2, heq, hinv⟩ := travLoop_inv s fuelBB vis loopFuel (some addr)
      ⟨[], [], [], []⟩ ⟨rfl, List.nil_sublist _, List.nodup_nil, List.nodup_nil⟩
    rw [traverse, heq]
    obtain ⟨h1, h2, h3, h4⟩ := hinv
    constructor
    · rw [h1]; exact h3
    · exact h2.nodup h4
  · intro s fuelBB vis insn bb st
    obtain ⟨n, hn, hne⟩ := procNode_trace vis bb st
    simp only [procBBEnd]
    split
    · rename_i st1 he1
      rw [he1] at hn
      simp only [Flow.st] at hn
      obtain ⟨r, hr, hre⟩ := procRhs_trace s fuelBB vis insn bb st1
      split
      · rename_i st2 he2
        rw [he2] at hr
        simp only [Flow.st] at hr
        obtain ⟨l, hl, hle⟩ := procLhs_trace s fuelBB vis insn bb st2
        refine ⟨n, r, l, ?_, hne, hre, hle⟩
        rw [hl, hr, hn]
        simp [List.append_assoc]
      · refine ⟨n, r, [], ?_, hne, hre, by simp⟩
        rw [hr, hn]
        simp [List.append_assoc]
    · refine ⟨n, [], [], ?_, hne, by simp, by simp⟩
      rw [hn]
      simp

end REIL
